import Mathlib

/-!
Verification of the Resume-Reviewer skill extraction, comparison and scoring
pipeline.  Python sources are shallowly embedded: Python sets become
`Finset String`, lists become `List`, floats become `ℚ`, and `round(x, 2)`
becomes `round2` below.  Strings are treated character-wise over `List Char`
where regular-expression behaviour has to be modelled; each concrete regex of
the source is specialised to an equivalent scanning function (the patterns
are alternations of literals, literal words with `\b` anchors, or simple
digit/whitespace sequences, so no general regex engine is needed).  ASCII
text is assumed where Python's `str.lower`/`\w`/`\s` have wider Unicode
behaviour; every string constant in the repository is ASCII.
-/

namespace ResumeReviewer

/-! ### Shared numeric and string helpers -/

/-- Python's `round(x, 2)` modelled over exact rationals (rounding the scaled
value to the nearest integer; the claims only constrain it at exact values,
where the tie-breaking convention is irrelevant). -/
def round2 (q : ℚ) : ℚ := (round (q * 100) : ℤ) / 100

/-- Python's `\s` character class (ASCII part). -/
def pyIsSpace (c : Char) : Bool :=
  c = ' ' || c = '\t' || c = '\n' || c = '\r' || c = '\x0b' || c = '\x0c'

/-- Python's `\w` character class (ASCII part): letters, digits, underscore. -/
def isWordChar (c : Char) : Bool := c.isAlphanum || c = '_'

/-- Case-insensitive character comparison, as under `re.IGNORECASE`. -/
def lowEq (a b : Char) : Bool := a.toLower == b.toLower

/-- Python `str.lower()` (character-wise; the repository's strings are
ASCII). -/
def pyLower (s : String) : String := String.mk (s.toList.map Char.toLower)

/-- `l` with leading and trailing whitespace removed. -/
def trimC (l : List Char) : List Char :=
  ((l.dropWhile pyIsSpace).reverse.dropWhile pyIsSpace).reverse

/-- Python `str.strip()`. -/
def pyStrip (s : String) : String := String.mk (trimC s.toList)

/-- State machine counting maximal non-whitespace runs; `inWord` records
whether the previous character was part of a run. -/
def wordCountC : List Char → Bool → ℕ
  | [], _ => 0
  | c :: cs, inWord =>
    if pyIsSpace c then wordCountC cs false
    else (if inWord then 0 else 1) + wordCountC cs true

/-- `len(line.split())`: number of maximal non-whitespace runs. -/
def wordCount (line : String) : ℕ := wordCountC line.toList false

/-- Lexicographic comparison of character lists by code point, Python's
string ordering. -/
def lexLe : List Char → List Char → Bool
  | [], _ => true
  | _ :: _, [] => false
  | a :: as, b :: bs =>
    if a.val < b.val then true
    else if b.val < a.val then false
    else lexLe as bs

/-- Insert into a sorted list of strings. -/
def insertStr (x : String) : List String → List String
  | [] => [x]
  | y :: ys => if lexLe x.toList y.toList then x :: y :: ys else y :: insertStr x ys

/-- Python `sorted(...)` on strings (insertion sort by code-point order). -/
def sortStrings (l : List String) : List String := l.foldr insertStr []

/-- Case-insensitive "the pattern `p` matches at the front of `t`". -/
def icaseStarts : List Char → List Char → Bool
  | [], _ => true
  | _ :: _, [] => false
  | p :: ps, t :: ts => lowEq t p && icaseStarts ps ts

/-- Word-character test on an optional character; `none` (start or end of the
string) counts as a non-word position, exactly as `\b` treats the string
edges. -/
def wordOpt : Option Char → Bool
  | none => false
  | some c => isWordChar c

/-- One attempted match of `\b<literal p>\b` (case-insensitive) at the head
of `t`, where `prevW` records whether the character immediately before `t`
is a word character. -/
def matchAtWB (p : List Char) (prevW : Bool) (t : List Char) : Bool :=
  icaseStarts p t && (prevW != wordOpt t.head?) &&
    (wordOpt (t.take p.length).getLast? != wordOpt (t.drop p.length).head?)

/-- Scanning loop of `re.search(r'\b' + re.escape(pat) + r'\b', text,
re.IGNORECASE)`: try a match at every position. -/
def wbSearchAux (p : List Char) (prevW : Bool) : List Char → Bool
  | [] => false
  | c :: rest => matchAtWB p prevW (c :: rest) || wbSearchAux p (isWordChar c) rest

/-- `re.search(r'\b' + re.escape(pat) + r'\b', text, re.IGNORECASE)` is not
`None`. -/
def wbSearch (pat text : String) : Bool := wbSearchAux pat.toList false text.toList

/-- Character-level substring containment. -/
def containsSubC (sub : List Char) : List Char → Bool
  | [] => sub.isEmpty
  | c :: t => sub.isPrefixOf (c :: t) || containsSubC sub t

/-- Substring containment (Python's `sub in hay` / an unanchored literal
`re.search`). -/
def containsSub (hay sub : String) : Bool := containsSubC sub.toList hay.toList

/-- `text.split('\n')`, character-level. -/
def splitLinesC : List Char → List (List Char)
  | [] => [[]]
  | c :: cs =>
    if c = '\n' then [] :: splitLinesC cs
    else
      match splitLinesC cs with
      | [] => [[c]]
      | l :: ls => (c :: l) :: ls

/-- `text.split('\n')`. -/
def pySplitLines (text : String) : List String :=
  (splitLinesC text.toList).map String.mk

/-- `'\n'.join(chunks)`, character-level. -/
def joinLinesC : List (List Char) → List Char
  | [] => []
  | [l] => l
  | l :: l' :: ls => l ++ '\n' :: joinLinesC (l' :: ls)

/-- `'\n'.join(chunks)`. -/
def joinStrings (ls : List String) : String := String.mk (joinLinesC (ls.map String.toList))

/-- `int(ds)` for a digit string. -/
def natOfDigits (l : List Char) : ℕ :=
  l.foldl (fun a c => a * 10 + (c.toNat - '0'.toNat)) 0

/-- Python `str.title()` (ASCII): a letter is uppercased after a non-letter
(and at the start) and lowercased after a letter. -/
def pyTitleGo : Bool → List Char → List Char
  | _, [] => []
  | prevAlpha, c :: cs =>
    (if c.isAlpha then (if prevAlpha then c.toLower else c.toUpper) else c) ::
      pyTitleGo c.isAlpha cs

/-- Python `str.title()`. -/
def pyTitle (s : String) : String := String.mk (pyTitleGo false s.toList)

/-- `s.replace('_', ' ')`. -/
def underscoreToSpace (s : String) : String :=
  String.mk (s.toList.map fun c => if c = '_' then ' ' else c)

/-! ### Configuration (src/config/settings.py) -/

/-- The four scoring weights (`SCORING_WEIGHTS` in settings.py). -/
structure ScoringWeights where
  skills_match : ℚ
  experience_match : ℚ
  education_match : ℚ
  semantic_similarity : ℚ
deriving DecidableEq, Repr

/-- `SCORING_WEIGHTS = {skills 0.50, experience 0.20, education 0.15,
semantic 0.15}`. -/
def SCORING_WEIGHTS : ScoringWeights :=
  { skills_match := 1/2
    experience_match := 1/5
    education_match := 3/20
    semantic_similarity := 3/20 }

/-- `SKILL_CATEGORIES` from settings.py, in dict insertion order. -/
def SKILL_CATEGORIES : List (String × List String) :=
  [("programming_languages",
    ["Python", "Java", "JavaScript", "C++", "C", "Go", "Rust", "TypeScript",
     "Ruby", "PHP", "Swift", "Kotlin", "Scala"]),
   ("web_frameworks",
    ["React", "Angular", "Vue", "Node.js", "Express", "Django", "Flask",
     "FastAPI", "Spring Boot", "Next.js", "Svelte"]),
   ("databases",
    ["MySQL", "PostgreSQL", "MongoDB", "Redis", "Cassandra", "DynamoDB",
     "SQLite", "Oracle", "SQL Server"]),
   ("cloud_platforms",
    ["AWS", "Azure", "GCP", "Google Cloud", "Heroku", "DigitalOcean",
     "Firebase"]),
   ("devops_tools",
    ["Docker", "Kubernetes", "Jenkins", "Git", "GitHub", "GitLab", "CI/CD",
     "Terraform", "Ansible"]),
   ("data_science",
    ["Machine Learning", "Deep Learning", "TensorFlow", "PyTorch",
     "Scikit-learn", "Pandas", "NumPy", "Data Analysis"]),
   ("mobile",
    ["Android", "iOS", "React Native", "Flutter", "SwiftUI"]),
   ("other_technical",
    ["REST API", "GraphQL", "Microservices", "Agile", "Scrum", "Testing",
     "Unit Testing"])]

/-- `SKILL_ALIASES` from settings.py, in dict insertion order. -/
def SKILL_ALIASES : List (String × String) :=
  [("js", "JavaScript"), ("ts", "TypeScript"), ("py", "Python"),
   ("react.js", "React"), ("reactjs", "React"), ("node", "Node.js"),
   ("nodejs", "Node.js"), ("k8s", "Kubernetes"), ("aws", "AWS"),
   ("gcp", "GCP"), ("ml", "Machine Learning"), ("dl", "Deep Learning"),
   ("api", "REST API")]

/-- `SkillExtractor.__init__`: `self.all_skills`, the concatenation of all
category skill lists in order. -/
def allSkillsList : List String := (SKILL_CATEGORIES.map Prod.snd).flatten

/-! ### Skill extraction (src/ai_engine/skill_extractor.py) -/

/-- The `found_skills` set of `SkillExtractor.extract_from_text` (lines
29-35), as the duplicate-free list of known skills whose names occur in
`text` with word boundaries, case-insensitively. -/
def extract_found_list (text : String) : List String :=
  allSkillsList.filter fun sk => wbSearch sk text

/-- The canonical skills added by `SkillExtractor._normalize_skills` (lines
53-63): one for every alias that occurs in `text` with word boundaries. -/
def alias_adds (text : String) : List String :=
  (SKILL_ALIASES.filter fun ac => wbSearch ac.1 text).map Prod.snd

/-- The `found_skills` set of `extract_from_text`. -/
def extract_found (text : String) : Finset String := (extract_found_list text).toFinset

/-- The normalized skill set underlying the `all_skills` entry returned by
`extract_from_text` (the union computed by `_normalize_skills`). -/
def extract_all_skills (text : String) : Finset String :=
  (extract_found_list text ++ alias_adds text).toFinset

/-- The `all_skills` list returned by `extract_from_text` via
`_categorize_skills` (line 95): `sorted(list(skills))`. -/
def all_skills_list (text : String) : List String :=
  sortStrings (extract_found_list text ++ alias_adds text).dedup

/-- `set(s.lower() for s in l)`. -/
def lowerSet (l : List String) : Finset String := (l.map pyLower).toFinset

/-- Result dictionary of `SkillExtractor.compare_skills`; the Python sets are
kept as finsets (the source sorts them into lists only for display). -/
structure SkillComparison where
  matched_skills : Finset String
  missing_skills : Finset String
  extra_skills : Finset String
  match_percentage : ℚ
  matched_count : ℕ
  total_required : ℕ
deriving DecidableEq

/-- `SkillExtractor.compare_skills` (skill_extractor.py lines 146-173). -/
def compare_skills (resume_skills jd_skills : List String) : SkillComparison :=
  let resume_set := lowerSet resume_skills
  let jd_set := lowerSet jd_skills
  let matched := resume_set ∩ jd_set
  let missing := jd_set \ resume_set
  let extra := resume_set \ jd_set
  let match_percentage : ℚ :=
    if jd_set = ∅ then 0 else (matched.card : ℚ) / (jd_set.card : ℚ) * 100
  { matched_skills := matched
    missing_skills := missing
    extra_skills := extra
    match_percentage := round2 match_percentage
    matched_count := matched.card
    total_required := jd_set.card }

/-- The fields of the JD dictionary produced by `JDParser.parse` that the
claims' functions consume (`raw_text`, `required_skills`,
`preferred_skills`; the remaining keys of the Python dict are not read by
any embedded function). -/
structure JDData where
  raw_text : String
  required_skills : List String
  preferred_skills : List String
deriving DecidableEq

/-- Result of `SkillExtractor.extract_from_jd` (lines 118-144), restricted
to the three skill lists it returns (the `categorized` entry is untouched by
the claims). -/
structure JDSkillsResult where
  required_skills : List String
  preferred_skills : List String
  all_skills : List String
deriving DecidableEq

/-- `SkillExtractor.extract_from_jd` (skill_extractor.py lines 118-144):
unions the parser-supplied required skills with everything extracted from
the raw text. -/
def extract_from_jd (jd : JDData) : JDSkillsResult :=
  let required := jd.required_skills ++ (extract_found_list jd.raw_text ++ alias_adds jd.raw_text)
  let preferred := jd.preferred_skills
  { required_skills := sortStrings required.dedup
    preferred_skills := sortStrings preferred.dedup
    all_skills := sortStrings (required ++ preferred).dedup }

/-! ### Match scoring (src/ai_engine/matcher.py) -/

/-- `Matcher` instances only hold the weight vector (matcher.py line 10). -/
structure Matcher where
  weights : ScoringWeights
deriving DecidableEq

/-- `Matcher.__init__` (matcher.py lines 9-10), over an arbitrary configured
weight vector: it stores the weights unconditionally.  The body contains no
`raise` and no check, so construction is a total function with no error
case. -/
def matcherInit (w : ScoringWeights) : Matcher := { weights := w }

/-- The weighted overall score of `Matcher.calculate_match_score`
(matcher.py lines 35-40 together with the `round(overall_score, 2)` on line
46), as a function of the four component scores. -/
def overall_score (w : ScoringWeights) (skills_score experience_score
    education_score semantic_score : ℚ) : ℚ :=
  round2 (skills_score * w.skills_match +
          experience_score * w.experience_match +
          education_score * w.education_match +
          semantic_score * w.semantic_similarity)

/-- `re.search(r'(\d+)', s)`: the first maximal digit run, as a number;
`0` when the string contains no digit (matcher.py line 77). -/
def firstNatAux : List Char → ℕ
  | [] => 0
  | c :: cs =>
    if c.isDigit then natOfDigits (c :: cs.takeWhile Char.isDigit)
    else firstNatAux cs

/-- First embedded integer of a string, `0` if none. -/
def firstNat (s : String) : ℕ := firstNatAux s.toList

/-- `Matcher._calculate_experience_score` (matcher.py lines 69-97). -/
def calculate_experience_score (resume_exp : ℚ) (jd_exp_str : String) : ℚ :=
  let required_exp : ℕ := firstNat jd_exp_str
  if required_exp = 0 then
    if resume_exp ≤ 2 then 100 else 80
  else if resume_exp ≥ required_exp then
    if resume_exp ≤ (required_exp : ℚ) + 2 then 100 else 90
  else
    let gap : ℚ := (required_exp : ℚ) - resume_exp
    if gap ≤ 1 then 70
    else if gap ≤ 2 then 50
    else 30

/-! ### Gap analysis (src/ai_engine/gap_analyzer.py) -/

/-- One entry of `critical_gaps` / `nice_to_have_gaps`. -/
structure GapItem where
  skill : String
  priority : String
  category : String
  reason : String
deriving DecidableEq

/-- `GapAnalyzer._categorize_single_skill` (lines 94-103): first category
containing a case-insensitive match, displayed with underscores replaced by
spaces and title-cased. -/
def categorize_single_skill (skill : String) : String :=
  match SKILL_CATEGORIES.find? (fun cs => cs.2.any fun s => pyLower s == pyLower skill) with
  | some cs => pyTitle (underscoreToSpace cs.1)
  | none => "Technical Skill"

/-- The dict appended for a critical gap (gap_analyzer.py lines 46-51). -/
def mkCriticalItem (s : String) : GapItem :=
  { skill := pyTitle s
    priority := "High"
    category := categorize_single_skill s
    reason := "Required by job description" }

/-- The dict appended for a nice-to-have gap (gap_analyzer.py lines 63-68). -/
def mkNiceItem (s : String) : GapItem :=
  { skill := pyTitle s
    priority := "Medium"
    category := categorize_single_skill s
    reason := "Preferred or complementary skill" }

/-- Loop of `GapAnalyzer._identify_critical_gaps` (lines 44-51). -/
def identifyCriticalGo (required_skills : Finset String) : List String → List GapItem
  | [] => []
  | s :: rest =>
    if pyLower s ∈ required_skills then mkCriticalItem s :: identifyCriticalGo required_skills rest
    else identifyCriticalGo required_skills rest

/-- `GapAnalyzer._identify_critical_gaps` (gap_analyzer.py lines 39-53). -/
def identify_critical_gaps (missing_skills jd_required : List String) : List GapItem :=
  identifyCriticalGo (lowerSet jd_required) missing_skills

/-- Loop of `GapAnalyzer._identify_nice_to_have_gaps` (lines 61-68). -/
def identifyNiceGo (preferred_skills required_skills : Finset String) :
    List String → List GapItem
  | [] => []
  | s :: rest =>
    if pyLower s ∈ preferred_skills ∨ pyLower s ∉ required_skills then
      mkNiceItem s :: identifyNiceGo preferred_skills required_skills rest
    else identifyNiceGo preferred_skills required_skills rest

/-- `GapAnalyzer._identify_nice_to_have_gaps` (gap_analyzer.py lines 55-70). -/
def identify_nice_to_have_gaps (missing_skills jd_required jd_preferred : List String) :
    List GapItem :=
  identifyNiceGo (lowerSet jd_preferred) (lowerSet jd_required) missing_skills

/-- `GapAnalyzer._estimate_learning_time` (gap_analyzer.py lines 151-173):
substring-based bucket heuristic, first matching bucket wins. -/
def estimate_learning_time (skill : String) : String :=
  let sl := pyLower skill
  if ["python", "java", "javascript", "c++", "go"].any (fun lang => containsSub sl lang) then
    "4-6 weeks"
  else if ["react", "angular", "django", "spring", "node"].any (fun fw => containsSub sl fw) then
    "2-4 weeks"
  else if ["docker", "git", "aws", "kubernetes"].any (fun tool => containsSub sl tool) then
    "1-2 weeks"
  else if ["sql", "mongodb", "postgresql", "mysql"].any (fun db => containsSub sl db) then
    "2-3 weeks"
  else
    "2-3 weeks"

/-- One entry of `priority_order`. -/
structure PriorityItem where
  rank : ℕ
  skill : String
  priority : String
  category : String
  estimated_time : String
deriving DecidableEq

/-- The dict built for an enumerated critical gap in
`_prioritize_learning` (gap_analyzer.py lines 129-136). -/
def critPriorityItem (ig : ℕ × GapItem) : PriorityItem :=
  { rank := ig.1 + 1
    skill := ig.2.skill
    priority := "Critical"
    category := ig.2.category
    estimated_time := estimate_learning_time ig.2.skill }

/-- The dict built for an enumerated nice-to-have gap in
`_prioritize_learning` (gap_analyzer.py lines 140-147). -/
def nicePriorityItem (start_rank : ℕ) (ig : ℕ × GapItem) : PriorityItem :=
  { rank := start_rank + ig.1
    skill := ig.2.skill
    priority := "Nice-to-have"
    category := ig.2.category
    estimated_time := estimate_learning_time ig.2.skill }

/-- `GapAnalyzer._prioritize_learning` (gap_analyzer.py lines 122-149):
first five critical gaps ranked from 1, then first three nice-to-have gaps
ranked continuing after them (`start_rank = len(priority_list) + 1`). -/
def prioritize_learning (critical_gaps nice_to_have_gaps : List GapItem) : List PriorityItem :=
  let critItems := (critical_gaps.take 5).enum.map critPriorityItem
  let start_rank := critItems.length + 1
  let niceItems := (nice_to_have_gaps.take 3).enum.map (nicePriorityItem start_rank)
  critItems ++ niceItems

/-! ### JD parsing (src/ai_engine/jd_parser.py) -/

/-- `re.search(p₁|...|pₙ, s)` for an alternation of literal lowercase
words, applied to an already lowercased string: containment of one of the
literals. -/
def containsPat (pats : List String) (s : String) : Bool :=
  pats.any fun p => containsSub s p

/-- The anchored stop alternation of `_extract_section` (jd_parser.py line
176): `^(required|preferred|responsibilities|qualifications|benefits|about|location|salary)`. -/
def stopWordsJD : List String :=
  ["required", "preferred", "responsibilities", "qualifications", "benefits",
   "about", "location", "salary"]

/-- Anchored prefix match of the stop alternation. -/
def startsWithStop (s : String) : Bool :=
  stopWordsJD.any fun w => w.toList.isPrefixOf s.toList

/-- Loop of `JDParser._extract_section` (jd_parser.py lines 165-183):
header lines (pattern match and at most 8 words) open the section and are
skipped; a stop header belonging to a different section breaks; lines seen
while inside the section are collected. -/
def extractSectionGo (pats : List String) : List String → Bool → List String
  | [], _ => []
  | line :: rest, inSection =>
    let lineLower := pyStrip (pyLower line)
    if containsPat pats lineLower && decide (wordCount line ≤ 8) then
      extractSectionGo pats rest true
    else if inSection && decide (wordCount line ≤ 8) && startsWithStop lineLower &&
        !containsPat pats lineLower then
      []
    else if inSection then
      line :: extractSectionGo pats rest inSection
    else
      extractSectionGo pats rest inSection

/-- `JDParser._extract_section` (jd_parser.py lines 159-185). -/
def extract_section (pats : List String) (text : String) : String :=
  joinStrings (extractSectionGo pats (pySplitLines text) false)

/-- Header alternation for the preferred-skills section (jd_parser.py line
79). -/
def preferredPats : List String := ["preferred", "nice to have", "bonus", "plus"]

/-- Header alternation for the required-skills section (jd_parser.py line
56). -/
def requiredPats : List String := ["required", "must have", "essential", "qualifications"]

/-- `JDParser._extract_preferred_skills` (jd_parser.py lines 74-94). -/
def extract_preferred_skills (text : String) : List String :=
  let sec := extract_section preferredPats text
  if sec = "" then []
  else sortStrings (allSkillsList.filter fun sk => wbSearch sk sec).dedup

/-- `JDParser._extract_required_skills` (jd_parser.py lines 51-72): searches
the required section when present, the whole text otherwise. -/
def extract_required_skills (text : String) : List String :=
  let sec := extract_section requiredPats text
  let search_text := if sec = "" then text else sec
  sortStrings (allSkillsList.filter fun sk => wbSearch sk search_text).dedup

/-- `JDParser.parse` (jd_parser.py lines 13-35), restricted to the fields
consumed by the claims' functions. -/
def parseJD (jd_text : String) : JDData :=
  { raw_text := jd_text
    required_skills := extract_required_skills jd_text
    preferred_skills := extract_preferred_skills jd_text }

/-! ### Resume experience estimation (src/ai_engine/resume_parser.py) -/

/-- Fuelled loop of the generic `re.findall` driver; the fuel only bounds
the recursion depth and never runs out when it starts at the list length,
because every step discards at least one character. -/
def scanAllGo {α : Type} (tryFn : List Char → Option (α × ℕ)) : ℕ → List Char → List α
  | 0, _ => []
  | _ + 1, [] => []
  | fuel + 1, c :: cs =>
    match tryFn (c :: cs) with
    | some ak => ak.1 :: scanAllGo tryFn fuel (cs.drop (ak.2 - 1))
    | none => scanAllGo tryFn fuel cs

/-- Generic non-overlapping left-to-right `re.findall` driver: `tryFn`
attempts a match at the head and returns the captured value and the number
of characters consumed (at least one for every pattern modelled here). -/
def scanAll {α : Type} (tryFn : List Char → Option (α × ℕ)) (l : List Char) : List α :=
  scanAllGo tryFn l.length l

/-- Head match of `(\d+)\+?\s*years?` (resume_parser.py line 101),
returning the captured number and the consumed length. -/
def tryYears1 (l : List Char) : Option (ℕ × ℕ) :=
  let ds := l.takeWhile Char.isDigit
  if ds.isEmpty then none
  else
    let r1 := l.drop ds.length
    let r2 := match r1 with
      | '+' :: t => t
      | _ => r1
    let r3 := r2.dropWhile pyIsSpace
    if icaseStarts ['y', 'e', 'a', 'r'] r3 then
      let r4 := r3.drop 4
      let r5 := match r4 with
        | c :: t => if lowEq c 's' then t else r4
        | [] => r4
      some (natOfDigits ds, l.length - r5.length)
    else none

/-- Head match of `(\d+)\s*-\s*(\d+)\s*years?` (resume_parser.py line 102),
returning the first captured number (the code keeps `match[0]`) and the
consumed length. -/
def tryYears2 (l : List Char) : Option (ℕ × ℕ) :=
  let ds1 := l.takeWhile Char.isDigit
  if ds1.isEmpty then none
  else
    let r1 := (l.drop ds1.length).dropWhile pyIsSpace
    match r1 with
    | '-' :: r2 =>
      let r3 := r2.dropWhile pyIsSpace
      let ds2 := r3.takeWhile Char.isDigit
      if ds2.isEmpty then none
      else
        let r4 := (r3.drop ds2.length).dropWhile pyIsSpace
        if icaseStarts ['y', 'e', 'a', 'r'] r4 then
          let r5 := r4.drop 4
          let r6 := match r5 with
            | c :: t => if lowEq c 's' then t else r5
            | [] => r5
          some (natOfDigits ds1, l.length - r6.length)
        else none
    | _ => none

/-- Second group `20\d{2}|Present|Current` of the date-range pattern
(resume_parser.py line 116), with `Present`/`Current` resolved to the fixed
reference year 2024 (line 123); returns the end year and the characters the
group consumes. -/
def tryDateEnd (r : List Char) : Option (ℤ × ℕ) :=
  match r with
  | '2' :: '0' :: e1 :: e2 :: _ =>
    if e1.isDigit && e2.isDigit then some ((natOfDigits ['2', '0', e1, e2] : ℤ), 4)
    else if icaseStarts ['p', 'r', 'e', 's', 'e', 'n', 't'] r then some (2024, 7)
    else if icaseStarts ['c', 'u', 'r', 'r', 'e', 'n', 't'] r then some (2024, 7)
    else none
  | _ =>
    if icaseStarts ['p', 'r', 'e', 's', 'e', 'n', 't'] r then some (2024, 7)
    else if icaseStarts ['c', 'u', 'r', 'r', 'e', 'n', 't'] r then some (2024, 7)
    else none

/-- Head match of the date-range pattern
`(20\d{2})\s*[-â€“]\s*(20\d{2}|Present|Current)` (resume_parser.py line
116; the separator class contains exactly the characters '-', 'â', '€', '“'
as they stand in the source file), returning the (start, end) pair. -/
def tryDate (l : List Char) : Option ((ℤ × ℤ) × ℕ) :=
  match l with
  | '2' :: '0' :: d1 :: d2 :: rest =>
    if d1.isDigit && d2.isDigit then
      let r2 := rest.dropWhile pyIsSpace
      match r2 with
      | sep :: r3 =>
        if sep = '-' || sep = 'â' || sep = '€' || sep = '“' then
          let r4 := r3.dropWhile pyIsSpace
          match tryDateEnd r4 with
          | some ek => some (((natOfDigits ['2', '0', d1, d2] : ℤ), ek.1),
                             l.length - (r4.length - ek.2))
          | none => none
        else none
      | [] => none
    else none
  | _ => none

/-- The `years` list of `ResumeParser._estimate_experience` (lines
100-113): all `findall` captures of the two explicit-mention patterns, in
pattern order. -/
def yearMentions (text : String) : List ℕ :=
  scanAll tryYears1 text.toList ++ scanAll tryYears2 text.toList

/-- The `date_matches` list of `ResumeParser._estimate_experience` (lines
116-117). -/
def dateRanges (text : String) : List (ℤ × ℤ) :=
  scanAll tryDate text.toList

/-- `ResumeParser._estimate_experience` (resume_parser.py lines 97-127):
sum of `(end - start)` over all date ranges when any exist, otherwise the
maximum explicit mention, otherwise 0. -/
def estimate_experience (text : String) : ℤ :=
  let years := yearMentions text
  let dates := dateRanges text
  if dates ≠ [] then (dates.map fun se => se.2 - se.1).sum
  else
    match years with
    | [] => 0
    | y :: ys => ((ys.foldl max y : ℕ) : ℤ)

/-- Side condition used when relating a word-boundary search on a section
(a join of lines) with the search on the whole text: the pattern contains no
character that compares case-insensitively equal to a newline. -/
def patNoNewline (p : List Char) : Prop := ∀ q ∈ p, lowEq '\n' q = false

instance (p : List Char) : Decidable (patNoNewline p) := by
  unfold patNoNewline
  infer_instance

/-! ## Theorems -/

/-! ### Rounding helpers -/

theorem round_le_round {a b : ℚ} (h : a ≤ b) : round a ≤ round b := by
  rw [round_eq, round_eq]
  exact Int.floor_le_floor (by linarith)

theorem round2_le_round2 {a b : ℚ} (h : a ≤ b) : round2 a ≤ round2 b := by
  unfold round2
  have h' : round (a * 100) ≤ round (b * 100) := round_le_round (by linarith)
  have h100 : (0 : ℚ) ≤ 100 := by norm_num
  exact div_le_div_of_nonneg_right (by exact_mod_cast h') (by norm_num)

theorem round2_hundred : round2 100 = 100 := by
  have h : ((100 : ℚ) * 100) = ((10000 : ℤ) : ℚ) := by norm_num
  unfold round2
  rw [h, round_intCast]
  norm_num

theorem round2_zero : round2 0 = 0 := by
  unfold round2
  norm_num

/-! ### Projections of compare_skills -/

theorem compare_matched (rs js : List String) :
    (compare_skills rs js).matched_skills = lowerSet rs ∩ lowerSet js := rfl

theorem compare_missing (rs js : List String) :
    (compare_skills rs js).missing_skills = lowerSet js \ lowerSet rs := rfl

theorem compare_extra (rs js : List String) :
    (compare_skills rs js).extra_skills = lowerSet rs \ lowerSet js := rfl

theorem compare_pct (rs js : List String) :
    (compare_skills rs js).match_percentage =
      round2 (if lowerSet js = ∅ then 0
        else ((lowerSet rs ∩ lowerSet js).card : ℚ) / ((lowerSet js).card : ℚ) * 100) := rfl

/-! ### Claim C1 -/

/-- Claim C1: for every pair of skill lists, `compare_skills` returns a
comparison whose matched and missing sets are disjoint, whose union is the
lower-cased JD required set, whose extra set is the lower-cased resume set
minus the required set, and whose match percentage is
`|matched| / |required| * 100` rounded to two decimals — `0` when the
required set is empty and `100` when the lower-cased resume set contains a
non-empty required set. -/
theorem compare_skills_spec (resume_skills jd_skills : List String) :
    (compare_skills resume_skills jd_skills).matched_skills ∩
        (compare_skills resume_skills jd_skills).missing_skills = ∅
    ∧ (compare_skills resume_skills jd_skills).matched_skills ∪
        (compare_skills resume_skills jd_skills).missing_skills = lowerSet jd_skills
    ∧ (compare_skills resume_skills jd_skills).extra_skills
        = lowerSet resume_skills \ lowerSet jd_skills
    ∧ (compare_skills resume_skills jd_skills).match_percentage
        = round2 (if lowerSet jd_skills = ∅ then 0
            else (((compare_skills resume_skills jd_skills).matched_skills.card : ℚ) /
              ((lowerSet jd_skills).card : ℚ) * 100))
    ∧ (lowerSet jd_skills = ∅ →
        (compare_skills resume_skills jd_skills).match_percentage = 0)
    ∧ (lowerSet jd_skills ≠ ∅ → lowerSet jd_skills ⊆ lowerSet resume_skills →
        (compare_skills resume_skills jd_skills).match_percentage = 100) := by
  refine ⟨?_, ?_, compare_extra _ _, compare_pct _ _, ?_, ?_⟩
  · rw [compare_matched, compare_missing]
    apply Finset.eq_empty_iff_forall_not_mem.mpr
    intro x hx
    rw [Finset.mem_inter, Finset.mem_inter, Finset.mem_sdiff] at hx
    exact hx.2.2 hx.1.1
  · rw [compare_matched, compare_missing]
    ext x
    simp only [Finset.mem_union, Finset.mem_inter, Finset.mem_sdiff]
    tauto
  · intro h
    rw [compare_pct, if_pos h]
    exact round2_zero
  · intro hne hsub
    have hm : lowerSet resume_skills ∩ lowerSet jd_skills = lowerSet jd_skills := by
      ext x
      rw [Finset.mem_inter]
      exact ⟨fun h => h.2, fun h => ⟨hsub h, h⟩⟩
    have hcard : ((lowerSet jd_skills).card : ℚ) ≠ 0 := by
      have : lowerSet jd_skills ≠ ∅ := hne
      have hpos : 0 < (lowerSet jd_skills).card :=
        Finset.card_pos.mpr (Finset.nonempty_iff_ne_empty.mpr this)
      exact_mod_cast Nat.pos_iff_ne_zero.mp hpos
    rw [compare_pct, if_neg hne, hm, div_self hcard, one_mul]
    exact round2_hundred

/-- Witness for C1 at concrete inputs: an empty requirement list yields 0%,
and a resume covering all of a non-empty requirement list yields 100%. -/
theorem compare_skills_spec_witness :
    (compare_skills ["Python"] []).match_percentage = 0
    ∧ (compare_skills ["Python", "Docker", "AWS"] ["python", "docker"]).match_percentage
        = 100 := by
  constructor
  · exact (compare_skills_spec ["Python"] []).2.2.2.2.1 (by decide)
  · exact (compare_skills_spec ["Python", "Docker", "AWS"] ["python", "docker"]).2.2.2.2.2
      (by decide) (by decide)

/-! ### Claim C2 -/

/-- Claim C2: whenever the four component scores lie in `[0, 100]`, the four
weights are non-negative and the weights sum to 1, the overall score lies in
`[0, 100]`, and it is monotone non-decreasing in the skills component with
the other three components fixed. -/
theorem overall_score_spec (w : ScoringWeights) (s₁ s₂ e ed sem : ℚ)
    (hs₁ : 0 ≤ s₁ ∧ s₁ ≤ 100) (hs₂ : 0 ≤ s₂ ∧ s₂ ≤ 100)
    (he : 0 ≤ e ∧ e ≤ 100) (hed : 0 ≤ ed ∧ ed ≤ 100)
    (hsem : 0 ≤ sem ∧ sem ≤ 100)
    (hw : 0 ≤ w.skills_match ∧ 0 ≤ w.experience_match ∧
          0 ≤ w.education_match ∧ 0 ≤ w.semantic_similarity)
    (hsum : w.skills_match + w.experience_match + w.education_match +
            w.semantic_similarity = 1) :
    (0 ≤ overall_score w s₁ e ed sem ∧ overall_score w s₁ e ed sem ≤ 100)
    ∧ (s₁ ≤ s₂ → overall_score w s₁ e ed sem ≤ overall_score w s₂ e ed sem) := by
  obtain ⟨hw1, hw2, hw3, hw4⟩ := hw
  have hlo : 0 ≤ s₁ * w.skills_match + e * w.experience_match +
      ed * w.education_match + sem * w.semantic_similarity := by
    have := mul_nonneg hs₁.1 hw1
    have := mul_nonneg he.1 hw2
    have := mul_nonneg hed.1 hw3
    have := mul_nonneg hsem.1 hw4
    linarith
  have hhi : s₁ * w.skills_match + e * w.experience_match +
      ed * w.education_match + sem * w.semantic_similarity ≤ 100 := by
    have h1 := mul_le_mul_of_nonneg_right hs₁.2 hw1
    have h2 := mul_le_mul_of_nonneg_right he.2 hw2
    have h3 := mul_le_mul_of_nonneg_right hed.2 hw3
    have h4 := mul_le_mul_of_nonneg_right hsem.2 hw4
    linarith
  refine ⟨⟨?_, ?_⟩, ?_⟩
  · have := round2_le_round2 hlo
    rw [round2_zero] at this
    exact this
  · have := round2_le_round2 hhi
    rw [round2_hundred] at this
    exact this
  · intro hle
    apply round2_le_round2
    have := mul_le_mul_of_nonneg_right hle hw1
    linarith

/-- Witness for C2 at the configured default weights and concrete component
scores. -/
theorem overall_score_spec_witness :
    (0 ≤ overall_score SCORING_WEIGHTS 50 60 70 80
      ∧ overall_score SCORING_WEIGHTS 50 60 70 80 ≤ 100)
    ∧ overall_score SCORING_WEIGHTS 50 60 70 80 ≤ overall_score SCORING_WEIGHTS 90 60 70 80 := by
  have h := overall_score_spec SCORING_WEIGHTS 50 90 60 70 80
    (by norm_num) (by norm_num) (by norm_num) (by norm_num) (by norm_num)
    (by norm_num [SCORING_WEIGHTS]) (by norm_num [SCORING_WEIGHTS])
  exact ⟨h.1, h.2 (by norm_num)⟩

/-! ### Claim C4 -/

/-- Claim C4: the experience score follows the stated piecewise rule with
`N` the first embedded integer of the JD experience string (`0` when no
digit occurs), and in particular required 3 with resume 6 yields 90. -/
theorem experience_score_spec :
    (∀ (R : ℚ) (s : String) (N : ℕ), firstNat s = N →
      calculate_experience_score R s =
        if N = 0 then (if R ≤ 2 then 100 else 80)
        else if R ≥ (N : ℚ) then (if R ≤ (N : ℚ) + 2 then 100 else 90)
        else if (N : ℚ) - R ≤ 1 then 70
        else if (N : ℚ) - R ≤ 2 then 50
        else 30)
    ∧ calculate_experience_score 6 "3+ years" = 90 := by
  constructor
  · intro R s N h
    unfold calculate_experience_score
    rw [h]
  · have h3 : firstNat "3+ years" = 3 := by decide
    unfold calculate_experience_score
    rw [h3]
    norm_num

/-- Witness for C4: the piecewise rule applied at resume 6, string
"3+ years", N = 3 gives the overqualified-band score 90. -/
theorem experience_score_spec_witness :
    calculate_experience_score 6 "3+ years" = 90 := by
  have h := experience_score_spec.1 6 "3+ years" 3 (by decide)
  rw [h]
  norm_num

/-! ### Claim C9 (corrected) -/

/-- Counterexample to C9 as stated: for the concrete weight vector with all
four weights 1/2 (sum 2 ≠ 1), constructing the scorer does not fail — it
returns a `Matcher` holding those weights unchanged, and scoring silently
proceeds, producing the out-of-range overall score 200 on perfect component
scores. -/
theorem matcher_init_no_validation_cex :
    (let w : ScoringWeights := ⟨1/2, 1/2, 1/2, 1/2⟩
     w.skills_match + w.experience_match + w.education_match + w.semantic_similarity ≠ 1
     ∧ matcherInit w = { weights := w }
     ∧ overall_score w 100 100 100 100 = 200) := by
  refine ⟨by norm_num, rfl, ?_⟩
  show round2 (100 * (1/2) + 100 * (1/2) + 100 * (1/2) + 100 * (1/2)) = 200
  have h : ((100 : ℚ) * (1/2) + 100 * (1/2) + 100 * (1/2) + 100 * (1/2)) * 100
      = ((20000 : ℤ) : ℚ) := by norm_num
  unfold round2
  rw [h, round_intCast]
  norm_num

/-- Amended C9: `Matcher.__init__` performs no validation of the scoring
weights — construction is total and stores any weight vector unchanged;
only the shipped default configuration happens to satisfy the sum-to-1
contract. -/
theorem matcher_init_total (w : ScoringWeights) :
    matcherInit w = { weights := w }
    ∧ SCORING_WEIGHTS.skills_match + SCORING_WEIGHTS.experience_match +
        SCORING_WEIGHTS.education_match + SCORING_WEIGHTS.semantic_similarity = 1 :=
  ⟨rfl, by norm_num [SCORING_WEIGHTS]⟩

/-! ### Claim C3 -/

theorem identifyCriticalGo_eq (req : Finset String) (l : List String) :
    identifyCriticalGo req l
      = (l.filter fun s => decide (pyLower s ∈ req)).map mkCriticalItem := by
  induction l with
  | nil => rfl
  | cons s rest ih =>
    by_cases h : pyLower s ∈ req
    · simp [identifyCriticalGo, h, ih, List.filter_cons]
    · simp [identifyCriticalGo, h, ih, List.filter_cons]

theorem identifyNiceGo_eq (pref req : Finset String) (l : List String) :
    identifyNiceGo pref req l
      = (l.filter fun s => decide (pyLower s ∈ pref ∨ pyLower s ∉ req)).map mkNiceItem := by
  induction l with
  | nil => rfl
  | cons s rest ih =>
    by_cases h : pyLower s ∈ pref ∨ pyLower s ∉ req
    · simp [identifyNiceGo, h, ih, List.filter_cons]
    · simp [identifyNiceGo, h, ih, List.filter_cons]

/-- Claim C3: a missing skill produces a critical gap exactly when its
lower-cased form is among the JD required skills, and a nice-to-have gap
exactly when its lower-cased form is among the JD preferred skills or not
among the required skills; a missing skill in neither list is therefore
nice-to-have by default, and the two lists can overlap (shown at a concrete
input where one skill lands in both). -/
theorem gap_classification (missing jd_required jd_preferred : List String) :
    identify_critical_gaps missing jd_required
        = (missing.filter fun s => decide (pyLower s ∈ lowerSet jd_required)).map mkCriticalItem
    ∧ identify_nice_to_have_gaps missing jd_required jd_preferred
        = (missing.filter fun s => decide (pyLower s ∈ lowerSet jd_preferred ∨
            pyLower s ∉ lowerSet jd_required)).map mkNiceItem
    ∧ (∀ s ∈ missing, pyLower s ∉ lowerSet jd_required → pyLower s ∉ lowerSet jd_preferred →
        mkNiceItem s ∈ identify_nice_to_have_gaps missing jd_required jd_preferred)
    ∧ (mkCriticalItem "aws" ∈ identify_critical_gaps ["aws"] ["AWS"]
        ∧ mkNiceItem "aws" ∈ identify_nice_to_have_gaps ["aws"] ["AWS"] ["aws"]) := by
  refine ⟨identifyCriticalGo_eq _ _, identifyNiceGo_eq _ _ _, ?_, by decide, by decide⟩
  intro s hs hreq _
  rw [identify_nice_to_have_gaps, identifyNiceGo_eq]
  apply List.mem_map_of_mem
  rw [List.mem_filter]
  exact ⟨hs, by simp [hreq]⟩

/-- Witness for C3: a missing skill that is neither required nor preferred
is reported as a nice-to-have gap. -/
theorem gap_classification_witness :
    mkNiceItem "terraform" ∈ identify_nice_to_have_gaps ["terraform"] ["python"] [] :=
  (gap_classification ["terraform"] ["python"] []).2.2.1 "terraform"
    (by decide) (by decide) (by decide)

/-! ### Claim C8 -/

theorem map_fst_add_enumFrom {α : Type} (l : List α) (n k : ℕ) :
    (List.enumFrom n l).map (fun ig => ig.1 + k) = List.range' (n + k) l.length := by
  induction l generalizing n with
  | nil => rfl
  | cons a t ih =>
    show (n + k) :: (List.enumFrom (n + 1) t).map (fun ig => ig.1 + k)
        = List.range' (n + k) (t.length + 1)
    rw [ih, List.range'_succ]
    have h : n + 1 + k = n + k + 1 := by omega
    rw [h]

theorem map_add_fst_enumFrom {α : Type} (l : List α) (n k : ℕ) :
    (List.enumFrom n l).map (fun ig => k + ig.1) = List.range' (k + n) l.length := by
  induction l generalizing n with
  | nil => rfl
  | cons a t ih =>
    show (k + n) :: (List.enumFrom (n + 1) t).map (fun ig => k + ig.1)
        = List.range' (k + n) (t.length + 1)
    rw [ih, List.range'_succ]
    have h : k + (n + 1) = k + n + 1 := by omega
    rw [h]

theorem map_snd_enumFrom {α β : Type} (g : α → β) (l : List α) (n : ℕ) :
    (List.enumFrom n l).map (fun ig => g ig.2) = l.map g := by
  induction l generalizing n with
  | nil => rfl
  | cons a t ih =>
    show g a :: (List.enumFrom (n + 1) t).map (fun ig => g ig.2) = g a :: t.map g
    rw [ih]

/-- Claim C8: the prioritized learning list consists of the first five
critical gaps (priority "Critical") followed by the first three
nice-to-have gaps (priority "Nice-to-have"), has length at most 8, carries
ranks that are exactly `1, 2, ...` in order (hence unique positive
integers), and annotates every entry with its estimated learning time. -/
theorem priority_order_spec (critical nice : List GapItem) :
    (prioritize_learning critical nice).length
        = min 5 critical.length + min 3 nice.length
    ∧ (prioritize_learning critical nice).length ≤ 8
    ∧ (prioritize_learning critical nice).map PriorityItem.rank
        = List.range' 1 (prioritize_learning critical nice).length
    ∧ ((prioritize_learning critical nice).map PriorityItem.rank).Nodup
    ∧ (∀ it ∈ prioritize_learning critical nice,
        0 < it.rank ∧ it.estimated_time = estimate_learning_time it.skill)
    ∧ (prioritize_learning critical nice).map PriorityItem.skill
        = (critical.take 5).map GapItem.skill ++ (nice.take 3).map GapItem.skill
    ∧ (∀ it ∈ (prioritize_learning critical nice).take (min 5 critical.length),
        it.priority = "Critical")
    ∧ (∀ it ∈ (prioritize_learning critical nice).drop (min 5 critical.length),
        it.priority = "Nice-to-have") := by
  have hN : ((critical.take 5).enum.map critPriorityItem).length = min 5 critical.length := by
    simp
  have hunfold : prioritize_learning critical nice
      = (critical.take 5).enum.map critPriorityItem ++
        (nice.take 3).enum.map
          (nicePriorityItem (((critical.take 5).enum.map critPriorityItem).length + 1)) := rfl
  have hlen : (prioritize_learning critical nice).length
      = min 5 critical.length + min 3 nice.length := by
    rw [hunfold, List.length_append, hN]
    simp
  have hrank : (prioritize_learning critical nice).map PriorityItem.rank
      = List.range' 1 (prioritize_learning critical nice).length := by
    rw [hlen, hunfold, List.map_append, List.map_map, List.map_map]
    have e1 : (PriorityItem.rank ∘ critPriorityItem)
        = fun ig : ℕ × GapItem => ig.1 + 1 := rfl
    have e2 : (PriorityItem.rank ∘
          nicePriorityItem (((critical.take 5).enum.map critPriorityItem).length + 1))
        = fun ig : ℕ × GapItem =>
            (((critical.take 5).enum.map critPriorityItem).length + 1) + ig.1 := rfl
    rw [e1, e2, hN]
    show (List.enumFrom 0 (critical.take 5)).map (fun ig => ig.1 + 1) ++
        (List.enumFrom 0 (nice.take 3)).map (fun ig => (min 5 critical.length + 1) + ig.1)
        = List.range' 1 (min 5 critical.length + min 3 nice.length)
    rw [map_fst_add_enumFrom, map_add_fst_enumFrom]
    have h0 : (0 : ℕ) + 1 = 1 := rfl
    have h1 : min 5 critical.length + 1 + 0 = 1 + min 5 critical.length := by omega
    rw [h0, h1]
    have happ := List.range'_append_1 1 (min 5 critical.length) (min 3 nice.length)
    rw [List.length_take, List.length_take] at *
    have hcomm : min 5 critical.length + min 3 nice.length
        = min 3 nice.length + min 5 critical.length := by omega
    rw [hcomm, ← happ]
  refine ⟨hlen, by rw [hlen]; omega, hrank, ?_, ?_, ?_, ?_, ?_⟩
  · rw [hrank]
    exact List.nodup_range' 1 _
  · intro it hit
    rw [hunfold] at hit
    rcases List.mem_append.mp hit with h | h
    · obtain ⟨ig, hig, rfl⟩ := List.mem_map.mp h
      exact ⟨Nat.succ_pos _, rfl⟩
    · obtain ⟨ig, hig, rfl⟩ := List.mem_map.mp h
      refine ⟨?_, rfl⟩
      show 0 < ((critical.take 5).enum.map critPriorityItem).length + 1 + ig.1
      omega
  · rw [hunfold, List.map_append, List.map_map, List.map_map]
    have e1 : (PriorityItem.skill ∘ critPriorityItem)
        = fun ig : ℕ × GapItem => ig.2.skill := rfl
    have e2 : (PriorityItem.skill ∘
          nicePriorityItem (((critical.take 5).enum.map critPriorityItem).length + 1))
        = fun ig : ℕ × GapItem => ig.2.skill := rfl
    rw [e1, e2]
    show (List.enumFrom 0 (critical.take 5)).map (fun ig => GapItem.skill ig.2) ++
        (List.enumFrom 0 (nice.take 3)).map (fun ig => GapItem.skill ig.2) = _
    rw [map_snd_enumFrom, map_snd_enumFrom]
  · intro it hit
    rw [hunfold, List.take_left' hN] at hit
    obtain ⟨ig, hig, rfl⟩ := List.mem_map.mp hit
    rfl
  · intro it hit
    rw [hunfold, List.drop_left' hN] at hit
    obtain ⟨ig, hig, rfl⟩ := List.mem_map.mp hit
    rfl

/-- Witness for C8 at a concrete pair of gap lists: ranks come out as
`[1, 2]` and every entry has a positive rank. -/
theorem priority_order_spec_witness :
    (prioritize_learning [mkCriticalItem "python"] [mkNiceItem "docker"]).map
        PriorityItem.rank = [1, 2]
    ∧ ∀ it ∈ prioritize_learning [mkCriticalItem "python"] [mkNiceItem "docker"],
        0 < it.rank := by
  have h := priority_order_spec [mkCriticalItem "python"] [mkNiceItem "docker"]
  constructor
  · rw [h.2.2.1]
    decide
  · intro it hit
    exact (h.2.2.2.2.1 it hit).1

/-! ### Claim C5 -/

/-- Claim C5: the estimated experience is the sum of `(end - start)` over
all date ranges found whenever at least one exists — taking precedence over
any explicit "N years" mentions — otherwise the maximum explicit mention,
otherwise 0.  The precedence is exercised at a concrete input where the
explicit mention (10) is larger than the date-range sum (2). -/
theorem estimate_experience_spec (text : String) :
    (dateRanges text ≠ [] →
      estimate_experience text = ((dateRanges text).map fun se => se.2 - se.1).sum)
    ∧ (dateRanges text = [] → ∀ y ys, yearMentions text = y :: ys →
        estimate_experience text = ((ys.foldl max y : ℕ) : ℤ))
    ∧ (dateRanges text = [] → yearMentions text = [] → estimate_experience text = 0)
    ∧ (yearMentions "10 years experience 2020-2022" = [10]
        ∧ dateRanges "10 years experience 2020-2022" = [(2020, 2022)]
        ∧ estimate_experience "10 years experience 2020-2022" = 2) := by
  refine ⟨?_, ?_, ?_, by decide, by decide, by decide⟩
  · intro h
    show (if dateRanges text ≠ [] then ((dateRanges text).map fun se => se.2 - se.1).sum
        else match yearMentions text with
          | [] => (0 : ℤ)
          | a :: as => ((as.foldl max a : ℕ) : ℤ))
      = ((dateRanges text).map fun se => se.2 - se.1).sum
    rw [if_pos h]
  · intro h y ys hy
    show (if dateRanges text ≠ [] then ((dateRanges text).map fun se => se.2 - se.1).sum
        else match yearMentions text with
          | [] => (0 : ℤ)
          | a :: as => ((as.foldl max a : ℕ) : ℤ))
      = ((ys.foldl max y : ℕ) : ℤ)
    rw [if_neg (fun hne => hne h), hy]
  · intro h hy
    show (if dateRanges text ≠ [] then ((dateRanges text).map fun se => se.2 - se.1).sum
        else match yearMentions text with
          | [] => (0 : ℤ)
          | a :: as => ((as.foldl max a : ℕ) : ℤ)) = 0
    rw [if_neg (fun hne => hne h), hy]

/-- Witness for C5: a text with no date range falls back to the explicit
mention maximum. -/
theorem estimate_experience_spec_witness :
    estimate_experience "worked 4 years then 2 years" = 4 := by
  have h := (estimate_experience_spec "worked 4 years then 2 years").2.1
    (by decide) 4 [2] (by decide)
  rw [h]
  decide

/-! ### Claim C6 -/

theorem mem_insertStr (x y : String) (l : List String) :
    x ∈ insertStr y l ↔ x = y ∨ x ∈ l := by
  induction l with
  | nil => simp [insertStr]
  | cons z zs ih =>
    show x ∈ (if lexLe y.toList z.toList then y :: z :: zs else z :: insertStr y zs) ↔ _
    by_cases h : lexLe y.toList z.toList = true
    · rw [if_pos h]
      simp [List.mem_cons]
    · rw [if_neg h]
      simp only [List.mem_cons, ih]
      tauto

theorem mem_sortStrings (x : String) (l : List String) :
    x ∈ sortStrings l ↔ x ∈ l := by
  induction l with
  | nil => simp [sortStrings]
  | cons y ys ih =>
    show x ∈ insertStr y (sortStrings ys) ↔ _
    rw [mem_insertStr, ih]
    simp

theorem mem_all_skills_list (x text : String) :
    x ∈ all_skills_list text ↔
      x ∈ extract_found_list text ∨ x ∈ alias_adds text := by
  unfold all_skills_list
  rw [mem_sortStrings, List.mem_dedup, List.mem_append]

/-- Claim C6: whenever an alias of the alias table occurs in the text with
word boundaries, the alias's canonical skill appears in the `all_skills`
list returned by `extract_from_text` (whether or not the canonical name
itself occurs), and normalization only ever adds to the directly-found
skills, never removes one. -/
theorem alias_adds_canonical (text al canonical : String)
    (hmem : (al, canonical) ∈ SKILL_ALIASES)
    (hfound : wbSearch al text = true) :
    canonical ∈ all_skills_list text
    ∧ ∀ sk ∈ extract_found_list text, sk ∈ all_skills_list text := by
  constructor
  · rw [mem_all_skills_list]
    right
    unfold alias_adds
    apply List.mem_map.mpr
    refine ⟨(al, canonical), ?_, rfl⟩
    rw [List.mem_filter]
    exact ⟨hmem, hfound⟩
  · intro sk hsk
    rw [mem_all_skills_list]
    exact Or.inl hsk

/-- Witness for C6: a text containing only the alias "k8s" (the canonical
name "Kubernetes" does not match anywhere in it) still yields Kubernetes in
the extracted skill list. -/
theorem alias_adds_canonical_witness :
    "Kubernetes" ∈ all_skills_list "Deployed services on k8s clusters"
    ∧ wbSearch "Kubernetes" "Deployed services on k8s clusters" = false :=
  ⟨(alias_adds_canonical "Deployed services on k8s clusters" "k8s" "Kubernetes"
      (by decide) (by decide)).1, by decide⟩

/-! ### Claim C7 -/

theorem extractSectionGo_no_header (pats : List String) (lines : List String)
    (h : ∀ line ∈ lines, containsPat pats (pyStrip (pyLower line)) = false) :
    extractSectionGo pats lines false = [] := by
  induction lines with
  | nil => rfl
  | cons line rest ih =>
    have hline := h line (List.mem_cons_self _ _)
    show (if containsPat pats (pyStrip (pyLower line)) && decide (wordCount line ≤ 8) then
        extractSectionGo pats rest true
      else if false && decide (wordCount line ≤ 8) && startsWithStop (pyStrip (pyLower line)) &&
          !containsPat pats (pyStrip (pyLower line)) then []
      else if false then line :: extractSectionGo pats rest false
      else extractSectionGo pats rest false) = []
    rw [hline]
    simp only [Bool.false_and, Bool.and_false, if_false, Bool.false_eq_true]
    exact ih fun l hl => h l (List.mem_cons_of_mem _ hl)

/-- Claim C7: when no line of the JD matches the preferred-section header
alternation `preferred|nice to have|bonus|plus`, the parser returns an
empty preferred-skills list — skills occurring elsewhere in the text are
never promoted to preferred. -/
theorem preferred_skills_require_section (text : String)
    (h : ∀ line ∈ pySplitLines text,
        containsPat preferredPats (pyStrip (pyLower line)) = false) :
    extract_preferred_skills text = [] := by
  have hgo := extractSectionGo_no_header preferredPats (pySplitLines text) h
  unfold extract_preferred_skills extract_section
  rw [hgo]
  rfl

/-- Witness for C7: a JD with no preferred-style header but with the known
skill name "Python" in its body yields no preferred skills. -/
theorem preferred_skills_require_section_witness :
    extract_preferred_skills
      "We need Python developers\nResponsibilities\nbuild and ship features" = [] :=
  preferred_skills_require_section
    "We need Python developers\nResponsibilities\nbuild and ship features" (by decide)

/-! ### Claim C10: word-boundary transfer between a section and the text

A section produced by `_extract_section` is a newline-join of a subset of
the lines of the original text.  The lemmas below show that a word-boundary
match of a newline-free pattern inside such a join happens inside a single
line, and that a match inside a line of the text is also a match in the
whole text (the line's neighbours in both strings are `'\n'` or a string
edge, all non-word positions, so every boundary test carries over). -/

theorem take_append_le {α : Type} {c z : List α} {n : ℕ} (h : n ≤ c.length) :
    (c ++ z).take n = c.take n := by
  induction c generalizing n with
  | nil =>
    have : n = 0 := by simpa using h
    subst this
    rfl
  | cons a c' ih =>
    cases n with
    | zero => rfl
    | succ m =>
      show a :: (c' ++ z).take m = a :: c'.take m
      rw [ih (by simpa using h)]

theorem drop_append_le {α : Type} {c z : List α} {n : ℕ} (h : n ≤ c.length) :
    (c ++ z).drop n = c.drop n ++ z := by
  induction c generalizing n with
  | nil =>
    have : n = 0 := by simpa using h
    subst this
    rfl
  | cons a c' ih =>
    cases n with
    | zero => rfl
    | succ m =>
      show (c' ++ z).drop m = c'.drop m ++ z
      exact ih (by simpa using h)

theorem wordOpt_drop_head (c tail : List Char) (n : ℕ) (h : n ≤ c.length) :
    wordOpt ((c ++ '\n' :: tail).drop n).head? = wordOpt (c.drop n).head? := by
  rw [drop_append_le h]
  rcases eq_or_lt_of_le h with heq | hlt
  · subst heq
    rw [List.drop_length]
    show wordOpt (some '\n') = wordOpt none
    decide
  · have hne : c.drop n ≠ [] := by
      rw [ne_eq, List.drop_eq_nil_iff]
      omega
    obtain ⟨d, ds, hds⟩ := List.exists_cons_of_ne_nil hne
    rw [hds]
    rfl

theorem icaseStarts_length : ∀ {p t : List Char}, icaseStarts p t = true → p.length ≤ t.length
  | [], _, _ => Nat.zero_le _
  | _ :: _, [], h => by simp [icaseStarts] at h
  | q :: qs, x :: ts, h => by
    simp only [icaseStarts, Bool.and_eq_true] at h
    simpa using Nat.succ_le_succ (icaseStarts_length h.2)

theorem icaseStarts_append {p t : List Char} (z : List Char)
    (h : icaseStarts p t = true) : icaseStarts p (t ++ z) = true := by
  induction p generalizing t with
  | nil => rfl
  | cons q qs ih =>
    cases t with
    | nil => simp [icaseStarts] at h
    | cons x ts =>
      rw [List.cons_append]
      simp only [icaseStarts, Bool.and_eq_true] at h ⊢
      exact ⟨h.1, ih h.2⟩

theorem icaseStarts_confine {p : List Char} (tail : List Char) (hnl : patNoNewline p) :
    ∀ {c : List Char}, icaseStarts p (c ++ '\n' :: tail) = true →
      p.length ≤ c.length ∧ icaseStarts p c = true := by
  induction p with
  | nil => exact fun {c} _ => ⟨Nat.zero_le _, rfl⟩
  | cons q qs ih =>
    intro c h
    cases c with
    | nil =>
      rw [List.nil_append] at h
      simp only [icaseStarts, Bool.and_eq_true] at h
      have hq := hnl q (List.mem_cons_self _ _)
      rw [hq] at h
      exact absurd h.1 (by simp)
    | cons x c' =>
      rw [List.cons_append] at h
      simp only [icaseStarts, Bool.and_eq_true] at h
      have hnl' : patNoNewline qs := fun r hr => hnl r (List.mem_cons_of_mem _ hr)
      obtain ⟨hlen, hst⟩ := ih hnl' h.2
      constructor
      · simpa using Nat.succ_le_succ hlen
      · simp only [icaseStarts, Bool.and_eq_true]
        exact ⟨h.1, hst⟩

theorem matchAtWB_confine {p c tail : List Char} {w : Bool} (hnl : patNoNewline p)
    (hp : p ≠ []) (h : matchAtWB p w (c ++ '\n' :: tail) = true) :
    matchAtWB p w c = true := by
  unfold matchAtWB at h ⊢
  rw [Bool.and_eq_true, Bool.and_eq_true] at h ⊢
  obtain ⟨⟨hs, hb1⟩, hb2⟩ := h
  obtain ⟨hlen, hsc⟩ := icaseStarts_confine tail hnl hs
  have hc : c ≠ [] := by
    intro hceq
    subst hceq
    cases p with
    | nil => exact hp rfl
    | cons _ _ => simp at hlen
  have hhead : (c ++ '\n' :: tail).head? = c.head? := by
    cases c with
    | nil => exact absurd rfl hc
    | cons a l => rfl
  rw [hhead] at hb1
  rw [take_append_le hlen, wordOpt_drop_head c tail p.length hlen] at hb2
  exact ⟨⟨hsc, hb1⟩, hb2⟩

theorem matchAtWB_extend {p c : List Char} (tail : List Char) {w : Bool} (hp : p ≠ [])
    (h : matchAtWB p w c = true) : matchAtWB p w (c ++ '\n' :: tail) = true := by
  unfold matchAtWB at h ⊢
  rw [Bool.and_eq_true, Bool.and_eq_true] at h ⊢
  obtain ⟨⟨hs, hb1⟩, hb2⟩ := h
  have hlen := icaseStarts_length hs
  have hc : c ≠ [] := by
    intro hceq
    subst hceq
    cases p with
    | nil => exact hp rfl
    | cons _ _ => simp at hlen
  have hhead : (c ++ '\n' :: tail).head? = c.head? := by
    cases c with
    | nil => exact absurd rfl hc
    | cons a l => rfl
  refine ⟨⟨icaseStarts_append _ hs, ?_⟩, ?_⟩
  · rw [hhead]
    exact hb1
  · rw [take_append_le hlen, wordOpt_drop_head c tail p.length hlen]
    exact hb2

theorem wbSearchAux_split {p : List Char} (tail : List Char) (hnl : patNoNewline p)
    (hp : p ≠ []) :
    ∀ (c : List Char) (w : Bool), wbSearchAux p w (c ++ '\n' :: tail) = true →
      wbSearchAux p w c = true ∨ wbSearchAux p false tail = true := by
  intro c
  induction c with
  | nil =>
    intro w h
    rw [List.nil_append] at h
    simp only [wbSearchAux] at h
    rcases Bool.or_eq_true_iff.mp h with hm | hr
    · exfalso
      unfold matchAtWB at hm
      rw [Bool.and_eq_true, Bool.and_eq_true] at hm
      obtain ⟨⟨hs, _⟩, _⟩ := hm
      cases p with
      | nil => exact hp rfl
      | cons q qs =>
        simp only [icaseStarts, Bool.and_eq_true] at hs
        have hq := hnl q (List.mem_cons_self _ _)
        rw [hq] at hs
        exact absurd hs.1 (by simp)
    · right
      have hw : isWordChar '\n' = false := by decide
      rwa [hw] at hr
  | cons x c' ih =>
    intro w h
    rw [List.cons_append] at h
    simp only [wbSearchAux] at h
    rcases Bool.or_eq_true_iff.mp h with hm | hr
    · left
      have hm' : matchAtWB p w ((x :: c') ++ '\n' :: tail) = true := by
        rw [List.cons_append]
        exact hm
      have hm2 := matchAtWB_confine hnl hp hm'
      simp only [wbSearchAux]
      rw [hm2, Bool.true_or]
    · rcases ih (isWordChar x) hr with hl | htail
      · left
        simp only [wbSearchAux]
        rw [hl, Bool.or_true]
      · right
        exact htail

theorem wbSearchAux_ext {p : List Char} (tail : List Char) (hp : p ≠ []) :
    ∀ (c : List Char) (w : Bool), wbSearchAux p w c = true →
      wbSearchAux p w (c ++ '\n' :: tail) = true := by
  intro c
  induction c with
  | nil =>
    intro w h
    simp [wbSearchAux] at h
  | cons x c' ih =>
    intro w h
    simp only [wbSearchAux] at h
    rw [List.cons_append]
    simp only [wbSearchAux]
    rcases Bool.or_eq_true_iff.mp h with hm | hr
    · have hm2 := matchAtWB_extend tail hp hm
      rw [List.cons_append] at hm2
      rw [hm2, Bool.true_or]
    · rw [ih (isWordChar x) hr, Bool.or_true]

theorem wbSearchAux_skip {p : List Char} (tail : List Char)
    (h : wbSearchAux p false tail = true) :
    ∀ (c : List Char) (w : Bool), wbSearchAux p w (c ++ '\n' :: tail) = true := by
  intro c
  induction c with
  | nil =>
    intro w
    rw [List.nil_append]
    simp only [wbSearchAux]
    have hw : isWordChar '\n' = false := by decide
    rw [hw, h, Bool.or_true]
  | cons x c' ih =>
    intro w
    rw [List.cons_append]
    simp only [wbSearchAux]
    rw [ih (isWordChar x), Bool.or_true]

theorem wbSearch_join {p : List Char} (hnl : patNoNewline p) (hp : p ≠ []) :
    ∀ chunks : List (List Char), wbSearchAux p false (joinLinesC chunks) = true →
      ∃ ch ∈ chunks, wbSearchAux p false ch = true := by
  intro chunks
  induction chunks with
  | nil =>
    intro h
    simp [joinLinesC, wbSearchAux] at h
  | cons l ls ih =>
    intro h
    cases ls with
    | nil => exact ⟨l, List.mem_singleton_self _, h⟩
    | cons l' ls' =>
      have hj : joinLinesC (l :: l' :: ls') = l ++ '\n' :: joinLinesC (l' :: ls') := rfl
      rw [hj] at h
      rcases wbSearchAux_split (joinLinesC (l' :: ls')) hnl hp l false h with hl | hrest
      · exact ⟨l, List.mem_cons_self _ _, hl⟩
      · obtain ⟨ch, hch, hsearch⟩ := ih hrest
        exact ⟨ch, List.mem_cons_of_mem _ hch, hsearch⟩

theorem wbSearch_join_rev {p : List Char} (hp : p ≠ []) :
    ∀ (chunks : List (List Char)) (ch : List Char), ch ∈ chunks →
      wbSearchAux p false ch = true →
      wbSearchAux p false (joinLinesC chunks) = true := by
  intro chunks
  induction chunks with
  | nil =>
    intro ch hch
    exact absurd hch (List.not_mem_nil _)
  | cons l ls ih =>
    intro ch hch hsearch
    cases ls with
    | nil =>
      rw [List.mem_singleton.mp hch] at hsearch
      exact hsearch
    | cons l' ls' =>
      have hj : joinLinesC (l :: l' :: ls') = l ++ '\n' :: joinLinesC (l' :: ls') := rfl
      rw [hj]
      rcases List.mem_cons.mp hch with rfl | hmem
      · exact wbSearchAux_ext (joinLinesC (l' :: ls')) hp ch false hsearch
      · exact wbSearchAux_skip (joinLinesC (l' :: ls'))
          (ih ch hmem hsearch) l false

theorem splitLinesC_ne_nil (t : List Char) : splitLinesC t ≠ [] := by
  cases t with
  | nil => simp [splitLinesC]
  | cons c cs =>
    show (if c = '\n' then [] :: splitLinesC cs
        else match splitLinesC cs with
          | [] => [[c]]
          | l :: ls => (c :: l) :: ls) ≠ []
    split
    · simp
    · split <;> simp

theorem join_split (t : List Char) : joinLinesC (splitLinesC t) = t := by
  induction t with
  | nil => rfl
  | cons c cs ih =>
    show joinLinesC (if c = '\n' then [] :: splitLinesC cs
        else match splitLinesC cs with
          | [] => [[c]]
          | l :: ls => (c :: l) :: ls) = c :: cs
    by_cases h : c = '\n'
    · rw [if_pos h]
      obtain ⟨l, ls, hls⟩ := List.exists_cons_of_ne_nil (splitLinesC_ne_nil cs)
      rw [hls]
      show [] ++ '\n' :: joinLinesC (l :: ls) = c :: cs
      rw [List.nil_append, ← hls, ih, h]
    · rw [if_neg h]
      obtain ⟨l, ls, hls⟩ := List.exists_cons_of_ne_nil (splitLinesC_ne_nil cs)
      rw [hls]
      cases ls with
      | nil =>
        show c :: l = c :: cs
        have hl : joinLinesC [l] = cs := by
          rw [← hls, ih]
        exact congrArg (c :: ·) hl
      | cons l' ls' =>
        show (c :: l) ++ '\n' :: joinLinesC (l' :: ls') = c :: cs
        have hl : l ++ '\n' :: joinLinesC (l' :: ls') = cs := by
          have := ih
          rw [hls] at this
          exact this
        rw [List.cons_append, hl]

theorem extractSectionGo_mem (pats : List String) :
    ∀ (lines : List String) (b : Bool) (x : String),
      x ∈ extractSectionGo pats lines b → x ∈ lines := by
  intro lines
  induction lines with
  | nil =>
    intro b x h
    simp [extractSectionGo] at h
  | cons line rest ih =>
    intro b x h
    simp only [extractSectionGo] at h
    split at h
    · exact List.mem_cons_of_mem _ (ih true x h)
    · split at h
      · simp at h
      · split at h
        · rcases List.mem_cons.mp h with rfl | hmem
          · exact List.mem_cons_self _ _
          · exact List.mem_cons_of_mem _ (ih b x hmem)
        · exact List.mem_cons_of_mem _ (ih b x h)

theorem wbSearch_line_to_text (pat text line : String) (hp : pat.toList ≠ [])
    (hline : line ∈ pySplitLines text) (h : wbSearch pat line = true) :
    wbSearch pat text = true := by
  unfold pySplitLines at hline
  obtain ⟨lc, hlc, rfl⟩ := List.mem_map.mp hline
  have h' : wbSearchAux pat.toList false lc = true := h
  have htxt := wbSearch_join_rev hp (splitLinesC text.toList) lc hlc h'
  rw [join_split] at htxt
  exact htxt

theorem wbSearch_section (pat : String) (content : List String)
    (hnl : patNoNewline pat.toList) (hp : pat.toList ≠ [])
    (h : wbSearch pat (joinStrings content) = true) :
    ∃ line ∈ content, wbSearch pat line = true := by
  have h' : wbSearchAux pat.toList false (joinLinesC (content.map String.toList)) = true := h
  obtain ⟨chl, hchl, hch⟩ := wbSearch_join hnl hp (content.map String.toList) h'
  obtain ⟨line, hlinemem, rfl⟩ := List.mem_map.mp hchl
  exact ⟨line, hlinemem, hch⟩

theorem allSkills_wf : ∀ sk ∈ allSkillsList, sk.toList ≠ [] ∧ patNoNewline sk.toList := by
  decide

/-- Claim C10: the `required_skills` list returned by `extract_from_jd`
contains every skill of the `all_skills` extraction of the raw JD text, and
for a JD dictionary produced by the JD parser, every returned preferred
skill also appears in the returned required list (a skill mentioned only in
the preferred section is reported as required). -/
theorem extract_from_jd_superset :
    (∀ (jd : JDData) (x : String), x ∈ all_skills_list jd.raw_text →
      x ∈ (extract_from_jd jd).required_skills)
    ∧ (∀ (raw x : String),
        x ∈ (extract_from_jd (parseJD raw)).preferred_skills →
        x ∈ (extract_from_jd (parseJD raw)).required_skills) := by
  have hreq : ∀ (jd : JDData) (x : String),
      (x ∈ jd.required_skills ∨ x ∈ extract_found_list jd.raw_text ∨
        x ∈ alias_adds jd.raw_text) →
      x ∈ (extract_from_jd jd).required_skills := by
    intro jd x hx
    show x ∈ sortStrings
      (jd.required_skills ++ (extract_found_list jd.raw_text ++ alias_adds jd.raw_text)).dedup
    rw [mem_sortStrings, List.mem_dedup, List.mem_append, List.mem_append]
    tauto
  constructor
  · intro jd x hx
    rw [mem_all_skills_list] at hx
    exact hreq jd x (Or.inr hx)
  · intro raw x hx
    have hx' : x ∈ extract_preferred_skills raw := by
      have hx0 : x ∈ sortStrings (parseJD raw).preferred_skills.dedup := hx
      rw [mem_sortStrings, List.mem_dedup] at hx0
      exact hx0
    by_cases hsec : extract_section preferredPats raw = ""
    · rw [extract_preferred_skills, if_pos hsec] at hx'
      exact absurd hx' (List.not_mem_nil _)
    · rw [extract_preferred_skills, if_neg hsec] at hx'
      rw [mem_sortStrings, List.mem_dedup, List.mem_filter] at hx'
      obtain ⟨hxall, hxsearch⟩ := hx'
      obtain ⟨hne, hnl⟩ := allSkills_wf x hxall
      have hsearch : wbSearch x
          (joinStrings (extractSectionGo preferredPats (pySplitLines raw) false)) = true :=
        hxsearch
      obtain ⟨line, hlm, hls⟩ := wbSearch_section x _ hnl hne hsearch
      have hlm' : line ∈ pySplitLines raw :=
        extractSectionGo_mem preferredPats (pySplitLines raw) false line hlm
      have hraw : wbSearch x raw = true := wbSearch_line_to_text x raw line hne hlm' hls
      exact hreq (parseJD raw) x
        (Or.inr (Or.inl (List.mem_filter.mpr ⟨hxall, hraw⟩)))

/-- Witness for C10: in a JD whose preferred section mentions Docker (and
whose required section does not), Docker still appears among the returned
required skills. -/
theorem extract_from_jd_superset_witness :
    "Docker" ∈ (extract_from_jd (parseJD "required\nPython\npreferred\nDocker")).required_skills :=
  extract_from_jd_superset.2 "required\nPython\npreferred\nDocker" "Docker" (by decide)

end ResumeReviewer
